import Mathlib

/-!
Verification of the deepwiki-open-mcp Repository Knowledge Engine
against its natural-language specification.

The TypeScript sources under `src/` provide the `RepoInfo` and
`WikiStructure` type declarations, the `urlDecoder` utility functions,
and the MCP server documentation.  The engine itself (extractor,
chunk-and-embed pipeline, wiki synthesis/repair, conversational
resolver) is part of the repository's Python backend, which is not in
the provided sources; those parts are modelled here from the
specification, each such definition carrying a doc comment starting
with `Modelled from the spec:`.
-/

namespace DeepWiki

/-! ### Repository references (src/src/types/repoinfo.tsx) -/

/-- The hosting platforms supported by the front end
(`SupportedPlatform`, as enumerated by the `RepoIcon` icon map and the
specification's data model). -/
inductive SupportedPlatform
  | github
  | gitlab
  | bitbucket
  | gitea
deriving DecidableEq, Repr

/-- The `type` field of `RepoInfo`: `SupportedPlatform | 'local'`. -/
inductive HostType
  | platform (p : SupportedPlatform)
  | localHost
deriving DecidableEq, Repr

/-- `RepoInfo` from src/src/types/repoinfo.tsx. -/
structure RepoInfo where
  owner : String
  repo : String
  type : HostType
  token : Option String
  localPath : Option String
  repoUrl : Option String
deriving DecidableEq, Repr

/-- Canonical web base URL for each hosting platform. -/
def platformBaseUrl : SupportedPlatform → String
  | .github => "https://github.com"
  | .gitlab => "https://gitlab.com"
  | .bitbucket => "https://bitbucket.org"
  | .gitea => "https://gitea.com"

/-- Modelled from the spec: the construction of a `RepositoryReference`
(spec section 3) — the code that creates and caches `RepoInfo` values on
first request lives in the backend, which is not among the provided
sources.  For a non-local host the canonical URL is derived from the
platform, owner and name; for a local host the local path is recorded
and no URL is derived. -/
def mkRepoInfo (ht : HostType) (owner repo : String) (token : Option String)
    (path : String) : RepoInfo :=
  match ht with
  | .localHost =>
      { owner := owner, repo := repo, type := .localHost, token := token
        localPath := some path, repoUrl := none }
  | .platform p =>
      { owner := owner, repo := repo, type := .platform p, token := token
        localPath := none
        repoUrl := some (platformBaseUrl p ++ "/" ++ owner ++ "/" ++ repo) }

/-! ### MCP tool schema (src/unnamed/part_000, the MCP server README) -/

/-- One parameter of an MCP tool: its name and whether it is required. -/
structure ToolParam where
  name : String
  required : Bool
deriving DecidableEq, Repr

/-- Modelled from the spec: the parameter table of the `query_repository`
tool exposed by the MCP protocol adapter, transcribed from the MCP
server README (src/unnamed/part_000, lines 23–35); the server code that
registers the tool is not among the provided sources. -/
def queryRepositoryParams : List ToolParam :=
  [ ⟨"repo_url", true⟩
  , ⟨"query", true⟩
  , ⟨"file_path", false⟩
  , ⟨"messages", false⟩
  , ⟨"repo_type", false⟩
  , ⟨"language", false⟩
  , ⟨"provider", false⟩
  , ⟨"model", false⟩
  , ⟨"access_token", false⟩
  , ⟨"excluded_dirs", false⟩
  , ⟨"excluded_files", false⟩ ]

/-! ### Conversation sessions (spec sections 3 and 4.4) -/

/-- A conversation role. -/
inductive Role
  | user
  | assistant
deriving DecidableEq, Repr

/-- One message of a conversation session. -/
structure Message where
  role : Role
  text : String
  timestamp : Nat
deriving DecidableEq, Repr

/-- `ConversationSession` from the spec's data model. -/
structure ConversationSession where
  sessionId : String
  repositoryKey : String
  orderedMessages : List Message
deriving DecidableEq, Repr

/-- The outcome of the model-provider call inside `resolve`. -/
inductive ProviderOutcome
  | success (answer : String)
  | failure
  | canceled
deriving DecidableEq, Repr

/-- The role sequence of a message list. -/
def rolesOf (l : List Message) : List Role := l.map (·.role)

/-- A role sequence strictly alternates user, assistant, user, assistant, …
with every user turn paired with a following assistant turn. -/
def alternatesUA : List Role → Bool
  | [] => true
  | .user :: .assistant :: rest => alternatesUA rest
  | _ => false

/-- Modelled from the spec: the session update performed by `resolve`
(spec section 4.4) — the resolver code lives in the backend, which is
not among the provided sources.  The new user turn and the completed
assistant turn are appended only after the full answer is known; on a
failed or canceled provider call the appended user turn is rolled back,
leaving the session exactly as it was before the call. -/
def resolveSession (sess : ConversationSession) (question : String)
    (outcome : ProviderOutcome) (t : Nat) : Option String × ConversationSession :=
  match outcome with
  | .success ans =>
      (some ans,
        { sess with orderedMessages :=
            sess.orderedMessages ++ [⟨.user, question, t⟩, ⟨.assistant, ans, t⟩] })
  | .failure => (none, sess)
  | .canceled => (none, sess)

/-! ### Shared list utilities -/

/-- First value bound to a key in an association list. -/
def lookupFirst {β : Type} : List (String × β) → String → Option β
  | [], _ => none
  | (k, v) :: rest, a => if k = a then some v else lookupFirst rest a

/-- Split a character list at every occurrence of a separator. -/
def splitOnChar (sep : Char) : List Char → List (List Char)
  | [] => [[]]
  | c :: rest =>
    match splitOnChar sep rest with
    | [] => [[c]]
    | line :: more =>
        if c = sep then [] :: line :: more else (c :: line) :: more

/-- Rejoin character-list lines with a separator. -/
def joinWithChar (sep : Char) : List (List Char) → List Char
  | [] => []
  | [l] => l
  | l :: rest => l ++ sep :: joinWithChar sep rest

/-- Lexicographic comparison of character lists (the order JavaScript
string comparison and the spec's "lexicographic by path" refer to). -/
def lexLe : List Char → List Char → Bool
  | [], _ => true
  | _ :: _, [] => false
  | a :: as, b :: bs => if a = b then lexLe as bs else decide (a < b)

/-! ### Content extraction (spec section 4.1) -/

/-- `ContentRecord` from the spec's data model. -/
structure ContentRecord where
  path : String
  rawContent : String
  sizeBytes : Nat
  isBinaryExcluded : Bool
deriving DecidableEq, Repr

/-- Path ordering on content records: lexicographic by path. -/
def pathLe (r₁ r₂ : ContentRecord) : Prop :=
  lexLe r₁.path.data r₂.path.data = true

instance : DecidableRel pathLe := fun r₁ r₂ => by
  unfold pathLe; infer_instance

/-- Insert a record into a path-sorted list, keeping it sorted. -/
def insertByPath (r : ContentRecord) : List ContentRecord → List ContentRecord
  | [] => [r]
  | x :: xs =>
      if lexLe r.path.data x.path.data then r :: x :: xs else x :: insertByPath r xs

/-- Insertion sort of content records by path. -/
def sortByPath (l : List ContentRecord) : List ContentRecord :=
  l.foldr insertByPath []

/-- A path is excluded when one of the excluded directories matches one
of its segments, or one of the excluded file patterns matches its base
name. -/
def pathExcluded (excludedDirs excludedFiles : List String) (p : String) : Bool :=
  let segs := splitOnChar '/' p.data
  (excludedDirs.any fun d => segs.any (fun s => decide (s = d.data))) ||
  (excludedFiles.any fun f => decide (segs.getLastD [] = f.data))

/-- Binary classification by content sniffing: a NUL byte marks the
content as binary. -/
def sniffBinary (content : String) : Bool :=
  content.data.any (fun c => decide (c = Char.ofNat 0))

/-- Modelled from the spec: the Content Extractor (spec section 4.1) —
the extractor code lives in the backend, which is not among the provided
sources.  Given the repository's files as (path, content) pairs, it
applies the exclusion filters, walks the remaining files in a stable
deterministic order (lexicographic by path) and produces one
`ContentRecord` per included file. -/
def extract (files : List (String × String))
    (excludedDirs excludedFiles : List String) : List ContentRecord :=
  let included := files.filter fun f => !(pathExcluded excludedDirs excludedFiles f.1)
  sortByPath (included.map fun f =>
    { path := f.1, rawContent := f.2, sizeBytes := f.2.data.length
      isBinaryExcluded := sniffBinary f.2 })

/-! ### Chunk and embed pipeline (spec section 4.2) -/

/-- `Chunk` from the spec's data model. -/
structure Chunk where
  chunkId : String
  sourcePath : String
  startLine : Nat
  endLine : Nat
  text : String
  embeddingVector : List Int
deriving DecidableEq, Repr

/-- `VectorIndex` from the spec's data model. -/
structure VectorIndex where
  repositoryKey : String
  embeddingModelId : String
  builtAt : Nat
  chunkCount : Nat
  chunks : List Chunk
deriving DecidableEq, Repr

/-- Line windows of bounded size with a fixed step, fuel-bounded. -/
def chunkWindows (maxLines step : Nat) :
    Nat → Nat → List (List Char) → List (Nat × List (List Char))
  | _, _, [] => []
  | 0, _, _ => []
  | Nat.succ fuel, start, ls =>
      let w := ls.take maxLines
      if ls.length ≤ maxLines then [(start, w)]
      else (start, w) :: chunkWindows maxLines step fuel (start + step) (ls.drop step)

/-- Modelled from the spec: the chunking policy of the Chunk & Embed
Pipeline (spec section 4.2) — the pipeline code lives in the backend,
which is not among the provided sources.  Each file is split into
overlapping line-bounded windows; the chunk id is the stable key built
from the source path, the line span and the index version; the
embedding is filled in by the provider. -/
def chunkRecord (maxLines overlap : Nat) (version : String)
    (r : ContentRecord) : List Chunk :=
  let step := max 1 (maxLines - overlap)
  let ls := splitOnChar '\n' r.rawContent.data
  (chunkWindows maxLines step ls.length 1 ls).map fun sw =>
    let endLine := sw.1 + sw.2.length - 1
    { chunkId := r.path ++ ":" ++ toString sw.1 ++ "-" ++ toString endLine
        ++ ":" ++ version
      sourcePath := r.path
      startLine := sw.1
      endLine := endLine
      text := String.mk (joinWithChar '\n' sw.2)
      embeddingVector := [] }

/-- Modelled from the spec: `buildIndex` of the Chunk & Embed Pipeline
(spec section 4.2) — the pipeline code lives in the backend, which is
not among the provided sources.  Binary-classified records are excluded
from chunking; every remaining record is chunked; the embedding
provider (a pure function of the chunk text) fills in the vectors; the
build timestamp `now` is recorded as `builtAt`. -/
def buildIndex (records : List ContentRecord) (provider : String → List Int)
    (maxLines overlap : Nat) (modelId repoKey version : String)
    (now : Nat) : VectorIndex :=
  let chunked :=
    ((records.filter fun r => !r.isBinaryExcluded).map
      (chunkRecord maxLines overlap version)).flatten
  let embedded := chunked.map fun c => { c with embeddingVector := provider c.text }
  { repositoryKey := repoKey, embeddingModelId := modelId, builtAt := now
    chunkCount := embedded.length, chunks := embedded }

/-! ### Build coordination (spec section 5) -/

/-- The in-flight build registry: which repository keys have a build in
flight (with the reference its callers receive), the next fresh index
reference, and the log of underlying build executions. -/
structure BuildCoordinator where
  inflight : List (String × Nat)
  nextRef : Nat
  executions : List (String × Nat)
deriving DecidableEq, Repr

/-- Modelled from the spec: the per-key serialization of index builds
(spec section 5) — the coordination code lives in the backend, which is
not among the provided sources.  A build request for a key with a build
already in flight attaches to that build and receives its index
reference; otherwise a fresh build execution is started and logged. -/
def requestBuild (st : BuildCoordinator) (key : String) : Nat × BuildCoordinator :=
  match lookupFirst st.inflight key with
  | some r => (r, st)
  | none =>
      (st.nextRef,
        { inflight := (key, st.nextRef) :: st.inflight
          nextRef := st.nextRef + 1
          executions := st.executions ++ [(key, st.nextRef)] })

/-! ### URL decoding (src/src/utils/urlDecoder.tsx)

`extractUrlDomain` and `extractUrlPath` call the platform's WHATWG
`URL` constructor inside a try/catch.  `urlParse` below is an
executable model of that constructor for the cases these functions
exercise: scheme recognition, authority splitting with userinfo
dropped, decimal port validation with default-port elision for the
special schemes, and pathname extraction.  IPv6 host brackets are
rejected rather than parsed. -/

/-- The result of a successful URL parse, with the fields the source
reads: `protocol` (with trailing colon), `hostname`, `port` (empty when
absent or elided as the scheme default) and `pathname`. -/
structure UrlParts where
  protocol : String
  hostname : String
  port : String
  pathname : String
deriving DecidableEq, Repr

/-- ASCII alphabetic test. -/
def isAsciiAlpha (c : Char) : Bool :=
  (decide ('a' ≤ c) && decide (c ≤ 'z')) || (decide ('A' ≤ c) && decide (c ≤ 'Z'))

/-- ASCII digit test. -/
def isAsciiDigit (c : Char) : Bool :=
  decide ('0' ≤ c) && decide (c ≤ '9')

/-- Characters allowed in a URL scheme after the first. -/
def isSchemeChar (c : Char) : Bool :=
  isAsciiAlpha c || isAsciiDigit c || decide (c = '+') || decide (c = '-') ||
    decide (c = '.')

/-- ASCII lowercase conversion. -/
def lowerChar (c : Char) : Char :=
  if decide ('A' ≤ c) && decide (c ≤ 'Z') then Char.ofNat (c.toNat + 32) else c

/-- Split off the scheme of a URL string: the lowercased scheme and the
remainder after the colon, or `none` when there is no valid scheme. -/
def splitScheme (l : List Char) : Option (List Char × List Char) :=
  let pre := l.takeWhile (fun c => decide (c ≠ ':'))
  if pre.length = l.length then none
  else
    match pre with
    | [] => none
    | c :: _ =>
        if isAsciiAlpha c && pre.all isSchemeChar then
          some (pre.map lowerChar, l.drop (pre.length + 1))
        else none

/-- Default port of each special scheme. -/
def specialSchemePort (scheme : List Char) : Option Nat :=
  if scheme = "http".data then some 80
  else if scheme = "https".data then some 443
  else if scheme = "ws".data then some 80
  else if scheme = "wss".data then some 443
  else if scheme = "ftp".data then some 21
  else none

/-- Decimal value of a digit list. -/
def digitsToNat (l : List Char) : Nat :=
  l.foldl (fun n c => n * 10 + (c.toNat - '0'.toNat)) 0

/-- The suffix after the last occurrence of a separator (the whole list
when the separator is absent). -/
def afterLast (sep : Char) (l : List Char) : List Char :=
  l.foldl (fun acc c => if c = sep then [] else acc ++ [c]) []

/-- Split at the last occurrence of a separator: the part before it and
`some` part after, or the whole list and `none` when it is absent. -/
def splitAtLast (sep : Char) (l : List Char) : List Char × Option (List Char) :=
  l.foldl
    (fun acc c =>
      match acc with
      | (before, none) =>
          if c = sep then (before, some []) else (before ++ [c], none)
      | (before, some after) =>
          if c = sep then (before ++ sep :: after, some [])
          else (before, some (after ++ [c])))
    ([], none)

/-- Parse a URL authority (after dropping any userinfo) into a host and
an optional validated port number; `none` on an invalid port or an IPv6
bracket host. -/
def parseAuthority (auth : List Char) : Option (List Char × Option Nat) :=
  let hostport := if auth.contains '@' then afterLast '@' auth else auth
  if hostport.contains '[' then none
  else
    match splitAtLast ':' hostport with
    | (host, none) => some (host, none)
    | (host, some portStr) =>
        if portStr = [] then some (host, none)
        else if portStr.all isAsciiDigit then
          let n := digitsToNat portStr
          if n ≤ 65535 then some (host, some n) else none
        else none

/-- Model of the WHATWG `URL` constructor (as `new URL(s)` with no
base) for the cases the url decoder exercises: returns the parsed
parts, or `none` where the constructor would throw. -/
def urlParse (s : String) : Option UrlParts :=
  match splitScheme s.data with
  | none => none
  | some (scheme, rest) =>
      match specialSchemePort scheme with
      | some defPort =>
          let rest' := rest.dropWhile (fun c => c = '/' || c = '\\')
          let auth := rest'.takeWhile
            (fun c => !(c = '/' || c = '\\' || c = '?' || c = '#'))
          let after := rest'.drop auth.length
          match parseAuthority auth with
          | none => none
          | some (host, port) =>
              if host = [] then none
              else
                let portCanon : Option Nat :=
                  match port with
                  | some n => if n = defPort then none else some n
                  | none => none
                let pathSeg := after.takeWhile (fun c => !(c = '?' || c = '#'))
                some
                  { protocol := String.mk (scheme ++ [':'])
                    hostname := String.mk (host.map lowerChar)
                    port :=
                      match portCanon with
                      | none => ""
                      | some n => toString n
                    pathname :=
                      if pathSeg = [] then "/"
                      else String.mk
                        (pathSeg.map fun c => if c = '\\' then '/' else c) }
      | none =>
          if rest.take 2 = ['/', '/'] then
            let rest' := rest.drop 2
            let auth := rest'.takeWhile (fun c => !(c = '/' || c = '?' || c = '#'))
            let after := rest'.drop auth.length
            match parseAuthority auth with
            | none => none
            | some (host, port) =>
                let pathSeg := after.takeWhile (fun c => !(c = '?' || c = '#'))
                some
                  { protocol := String.mk (scheme ++ [':'])
                    hostname := String.mk (host.map lowerChar)
                    port :=
                      match port with
                      | none => ""
                      | some n => toString n
                    pathname := String.mk pathSeg }
          else
            some
              { protocol := String.mk (scheme ++ [':'])
                hostname := ""
                port := ""
                pathname :=
                  String.mk (rest.takeWhile fun c => !(c = '?' || c = '#')) }

/-- `input.startsWith('http')` from the source, on character lists. -/
def startsWithHttp (s : String) : Bool :=
  decide (s.data.take 4 = "http".data)

/-- The normalization both url decoder functions perform before parsing:
prefix `https://` unless the input starts with `http`. -/
def normalizeUrlInput (input : String) : String :=
  if startsWithHttp input then input else "https://" ++ input

/-- The port values the source elides: the JavaScript check is
`[null, "", "80", "443"].includes(url.port)`, and `url.port` is a
string, so `null` can never match. -/
def defaultPortStrings : List String := ["", "80", "443"]

/-- `extractUrlDomain` from src/src/utils/urlDecoder.tsx. -/
def extractUrlDomain (input : String) : Option String :=
  match urlParse (normalizeUrlInput input) with
  | none => none
  | some url =>
      let result := url.protocol ++ "//" ++ url.hostname
      some (if url.port ∈ defaultPortStrings then result
            else result ++ ":" ++ url.port)

/-- Drop one leading slash, as the `^\/` alternative of the source's
`replace(/^\/|\/$/g, '')` does. -/
def dropLeadingSlash : List Char → List Char
  | [] => []
  | c :: rest => if c = '/' then rest else c :: rest

/-- Drop one trailing slash, as the `\/$` alternative of the source's
`replace(/^\/|\/$/g, '')` does. -/
def dropTrailingSlash (l : List Char) : List Char :=
  (dropLeadingSlash l.reverse).reverse

/-- `pathname.replace(/^\/|\/$/g, '')` from the source: one leading and
one trailing slash removed (for the single-character pathname "/" the
leading match consumes the only character, exactly as the regex does). -/
def stripSlashes (s : String) : String :=
  String.mk (dropTrailingSlash (dropLeadingSlash s.data))

/-- `extractUrlPath` from src/src/utils/urlDecoder.tsx. -/
def extractUrlPath (input : String) : Option String :=
  match urlParse (normalizeUrlInput input) with
  | none => none
  | some url => some (stripSlashes url.pathname)

/-- Demo file content with the given number of lines. -/
def demoContent (n : Nat) : String :=
  String.mk (joinWithChar '\n' (List.replicate n ['x']))

/-! ### Wiki structures (src/unnamed/part_001 and spec sections 3, 4.3) -/

/-- `WikiPage` from the spec's data model. -/
structure WikiPage where
  id : String
  title : String
  content : String
  relatedPageIds : List String
deriving DecidableEq, Repr

/-- `WikiSection` from the spec's data model. -/
structure WikiSection where
  id : String
  title : String
  pageIds : List String
  subsectionIds : List String
deriving DecidableEq, Repr

/-- `WikiStructure` from src/unnamed/part_001. -/
structure WikiStructure where
  id : String
  title : String
  description : String
  pages : List WikiPage
  sections : List WikiSection
  rootSections : List String
deriving DecidableEq, Repr

/-- Keep the first occurrence of each key, dropping later duplicates. -/
def dedupByKey {α : Type} (key : α → String) (l : List α) : List α :=
  l.foldl (fun acc x => if key x ∈ acc.map key then acc else acc ++ [x]) []

/-- Position of the first occurrence of an element in a list (length of
the list when absent); the rank function of the repaired section graph. -/
def rankIn : List String → String → Nat
  | [], _ => 0
  | x :: xs, a => if x = a then 0 else rankIn xs a + 1

/-- State of the repair pass's traversal of the section graph: the
sections discovered so far in discovery order, the parent each
discovered section was first reached from, and the frontier still to
expand. -/
structure Trav where
  visited : List String
  parentMap : List (String × String)
  queue : List String
deriving DecidableEq, Repr

/-- Visit one candidate subsection: a child that exists and has not been
discovered yet is appended to the discovery order with the expanding
section as its parent, and queued for expansion. -/
def visitChild (sids : List String) (q : String) (st : Trav) (t : String) : Trav :=
  if t ∈ sids ∧ t ∉ st.visited then
    { visited := st.visited ++ [t]
      parentMap := st.parentMap ++ [(t, q)]
      queue := st.queue ++ [t] }
  else st

/-- First section with a given id. -/
def findSection (ss : List WikiSection) (i : String) : Option WikiSection :=
  ss.find? (fun s => s.id == i)

/-- Expand one dequeued section, visiting its declared subsections in
order. -/
def expandSection (ss : List WikiSection) (st : Trav) (q : String) : Trav :=
  match findSection ss q with
  | none => st
  | some sec => sec.subsectionIds.foldl (visitChild (ss.map (·.id)) q) st

/-- Fuel-bounded breadth-first traversal of the section graph. -/
def travRun (ss : List WikiSection) : Nat → Trav → Trav
  | 0, st => st
  | Nat.succ fuel, st =>
      match st.queue with
      | [] => st
      | q :: rest => travRun ss fuel (expandSection ss { st with queue := rest } q)

/-- The pages with duplicate ids removed (first occurrence kept). -/
def pagesBase (w : WikiStructure) : List WikiPage :=
  dedupByKey (fun p => p.id) w.pages

/-- The ids of the deduplicated pages. -/
def pageIdsBase (w : WikiStructure) : List String :=
  (pagesBase w).map (fun p => p.id)

/-- Modelled from the spec: the page half of the synthesizer's repair
pass (spec section 4.3) — the synthesizer code lives in the backend,
which is not among the provided sources.  Page ids are deduplicated and
each page's `relatedPageIds` is pruned to existing page ids with
self-references removed. -/
def repairedPages (w : WikiStructure) : List WikiPage :=
  (pagesBase w).map fun p =>
    { p with relatedPageIds :=
        p.relatedPageIds.filter fun r => decide (r ∈ pageIdsBase w ∧ r ≠ p.id) }

/-- The sections with duplicate ids removed (first occurrence kept). -/
def sectionsBase (w : WikiStructure) : List WikiSection :=
  dedupByKey (fun s => s.id) w.sections

/-- The ids of the deduplicated sections. -/
def sectionIdsBase (w : WikiStructure) : List String :=
  (sectionsBase w).map (fun s => s.id)

/-- The declared root sections that actually exist. -/
def rootsBase (w : WikiStructure) : List String :=
  w.rootSections.filter fun r => decide (r ∈ sectionIdsBase w)

/-- The completed traversal of the section graph from the roots. -/
def travFinal (w : WikiStructure) : Trav :=
  travRun (sectionsBase w) ((rootsBase w).length + (sectionsBase w).length)
    ⟨rootsBase w, [], rootsBase w⟩

/-- Modelled from the spec: the section half of the repair pass (spec
section 4.3) — the synthesizer code lives in the backend, which is not
among the provided sources.  Dangling page references are removed, and
a section keeps a subsection exactly when the traversal discovered that
subsection through it (its first valid parent), which detaches every
cycle-forming or duplicate parental edge deterministically. -/
def repairedSections (w : WikiStructure) : List WikiSection :=
  (sectionsBase w).map fun s =>
    { s with
      pageIds := s.pageIds.filter fun p => decide (p ∈ pageIdsBase w)
      subsectionIds := s.subsectionIds.filter fun t =>
        decide (lookupFirst (travFinal w).parentMap t = some s.id) }

/-- Modelled from the spec: sections the traversal never reached have no
remaining inbound structural reference and are attached to the root
(the synthetic root of spec section 4.3), preserving completeness. -/
def repairedRoots (w : WikiStructure) : List String :=
  rootsBase w ++
    (sectionIdsBase w).filter fun i => decide (i ∉ (travFinal w).visited)

/-- Modelled from the spec: the full repair pass the synthesizer runs
before returning a `WikiStructure` (spec section 4.3). -/
def repairStructure (w : WikiStructure) : WikiStructure :=
  { w with
    pages := repairedPages w
    sections := repairedSections w
    rootSections := repairedRoots w }

/-- One section-to-subsection edge of a wiki structure. -/
def sectEdge (w : WikiStructure) (s t : String) : Prop :=
  ∃ sec ∈ w.sections, sec.id = s ∧ t ∈ sec.subsectionIds

/-- The structural invariant of `WikiStructure` (spec section 3): all
page references of sections resolve, all root ids resolve, all
subsection references resolve, all related-page references resolve and
are not self-references, page and section ids are unique, and the
section-to-subsection relation has no cycle (in particular none
reachable from the roots). -/
def validStructure (w : WikiStructure) : Prop :=
  (∀ sec ∈ w.sections, ∀ p ∈ sec.pageIds, p ∈ w.pages.map (·.id)) ∧
  (∀ r ∈ w.rootSections, r ∈ w.sections.map (·.id)) ∧
  (∀ sec ∈ w.sections, ∀ t ∈ sec.subsectionIds, t ∈ w.sections.map (·.id)) ∧
  (∀ p ∈ w.pages, ∀ r ∈ p.relatedPageIds, r ∈ w.pages.map (·.id) ∧ r ≠ p.id) ∧
  (w.pages.map (·.id)).Nodup ∧
  (w.sections.map (·.id)).Nodup ∧
  (∀ s, ¬ Relation.TransGen (sectEdge w) s s)

/-- The traversal invariant: queued sections are discovered, parent-map
keys are discovered, discovered sections exist, and every parent edge
points from an earlier-discovered section to a later-discovered one. -/
structure TravInv (sids : List String) (st : Trav) : Prop where
  queue_vis : ∀ q ∈ st.queue, q ∈ st.visited
  keys_vis : ∀ cp ∈ st.parentMap, cp.1 ∈ st.visited
  vis_sids : ∀ v ∈ st.visited, v ∈ sids
  rank_lt : ∀ c p, lookupFirst st.parentMap c = some p →
      c ∈ st.visited ∧ p ∈ st.visited ∧
        rankIn st.visited p < rankIn st.visited c

theorem alternatesUA_append_pair :
    ∀ l : List Role, alternatesUA (l ++ [Role.user, Role.assistant]) = alternatesUA l
  | [] => rfl
  | [Role.user] => rfl
  | [Role.assistant] => rfl
  | Role.user :: Role.user :: _ => rfl
  | Role.user :: Role.assistant :: rest => by
      simpa [alternatesUA] using alternatesUA_append_pair rest
  | Role.assistant :: _ :: _ => rfl

theorem lookupFirst_append_some {β : Type} (l m : List (String × β)) (a : String)
    (v : β) (h : lookupFirst l a = some v) : lookupFirst (l ++ m) a = some v := by
  induction l with
  | nil => cases h
  | cons kv rest ih =>
      obtain ⟨k, u⟩ := kv
      by_cases hk : k = a
      · simp only [lookupFirst, if_pos hk] at h
        simpa [List.cons_append, lookupFirst, if_pos hk] using h
      · simp only [List.cons_append, lookupFirst, if_neg hk] at h ⊢
        exact ih h

theorem lookupFirst_append_none {β : Type} (l m : List (String × β)) (a : String)
    (h : lookupFirst l a = none) : lookupFirst (l ++ m) a = lookupFirst m a := by
  induction l with
  | nil => rfl
  | cons kv rest ih =>
      obtain ⟨k, u⟩ := kv
      by_cases hk : k = a
      · simp [lookupFirst, if_pos hk] at h
      · simp only [List.cons_append, lookupFirst, if_neg hk] at h ⊢
        exact ih h

theorem lexLe_total : ∀ a b : List Char, lexLe a b = true ∨ lexLe b a = true
  | [], _ => Or.inl rfl
  | _ :: _, [] => Or.inr rfl
  | a :: as, b :: bs => by
      by_cases hab : a = b
      · subst hab
        simpa [lexLe] using lexLe_total as bs
      · rcases lt_trichotomy a b with h | h | h
        · exact Or.inl (by simp [lexLe, hab, h])
        · exact absurd h hab
        · exact Or.inr (by simp [lexLe, Ne.symm hab, h])

theorem lexLe_trans :
    ∀ a b c : List Char, lexLe a b = true → lexLe b c = true → lexLe a c = true
  | [], _, _, _, _ => rfl
  | _ :: _, [], _, h, _ => by simp [lexLe] at h
  | _ :: _, _ :: _, [], _, h => by simp [lexLe] at h
  | a :: as, b :: bs, c :: cs, h₁, h₂ => by
      by_cases hab : a = b <;> by_cases hbc : b = c
      · subst hab; subst hbc
        simp only [lexLe, if_pos rfl] at h₁ h₂ ⊢
        exact lexLe_trans as bs cs h₁ h₂
      · subst hab
        simp only [lexLe, if_pos rfl] at h₁
        simp only [lexLe, if_neg hbc, decide_eq_true_eq] at h₂
        simp [lexLe, ne_of_lt h₂, h₂]
      · subst hbc
        simp only [lexLe, if_neg hab, decide_eq_true_eq] at h₁
        simp [lexLe, ne_of_lt h₁, h₁]
      · simp only [lexLe, if_neg hab, decide_eq_true_eq] at h₁
        simp only [lexLe, if_neg hbc, decide_eq_true_eq] at h₂
        have hac : a < c := lt_trans h₁ h₂
        simp [lexLe, ne_of_lt hac, hac]

theorem mem_insertByPath (r y : ContentRecord) :
    ∀ l, y ∈ insertByPath r l ↔ y = r ∨ y ∈ l := by
  intro l
  induction l with
  | nil => simp [insertByPath]
  | cons x xs ih =>
      cases hb : lexLe r.path.data x.path.data with
      | true => simp [insertByPath, hb]
      | false =>
          simp only [insertByPath, hb, Bool.false_eq_true, if_false, List.mem_cons, ih]
          tauto

theorem sorted_insertByPath (r : ContentRecord) (l : List ContentRecord)
    (hl : l.Pairwise pathLe) : (insertByPath r l).Pairwise pathLe := by
  induction l with
  | nil => simp [insertByPath, pathLe]
  | cons x xs ih =>
      rcases List.pairwise_cons.mp hl with ⟨hx, hxs⟩
      cases hb : lexLe r.path.data x.path.data with
      | true =>
          rw [insertByPath, if_pos hb]
          refine List.pairwise_cons.mpr ⟨?_, hl⟩
          intro y hy
          rcases List.mem_cons.mp hy with rfl | hy
          · exact hb
          · exact lexLe_trans _ _ _ hb (hx y hy)
      | false =>
          rw [insertByPath, if_neg (by simp [hb])]
          refine List.pairwise_cons.mpr ⟨?_, ih hxs⟩
          intro y hy
          rcases (mem_insertByPath r y xs).mp hy with rfl | hy
          · rcases lexLe_total y.path.data x.path.data with hr | hr
            · exact absurd hr (by simp [hb])
            · exact hr
          · exact hx y hy

theorem sorted_sortByPath (l : List ContentRecord) :
    (sortByPath l).Pairwise pathLe := by
  induction l with
  | nil => simp [sortByPath]
  | cons x xs ih => exact sorted_insertByPath x _ ih

/-! ### Claim theorems (first group) -/

/-- C2: every `RepoInfo` the program constructs satisfies exactly one of
the two alternatives — either its host type is not local and `repoUrl`
is set (with `localPath` unset), or its host type is local and
`localPath` is set (with `repoUrl` unset); never both, never neither. -/
theorem repoInfo_host_invariant (ht : HostType) (owner repo : String)
    (token : Option String) (path : String) :
    let r := mkRepoInfo ht owner repo token path
    ((r.type ≠ HostType.localHost ∧ r.repoUrl.isSome ∧ r.localPath = none) ∧
      ¬ (r.type = HostType.localHost ∧ r.localPath.isSome ∧ r.repoUrl = none)) ∨
    ((r.type = HostType.localHost ∧ r.localPath.isSome ∧ r.repoUrl = none) ∧
      ¬ (r.type ≠ HostType.localHost ∧ r.repoUrl.isSome ∧ r.localPath = none)) := by
  cases ht with
  | localHost => exact Or.inr (by simp [mkRepoInfo])
  | platform p => exact Or.inl (by simp [mkRepoInfo])

/-- C3: the agent-facing `query_repository` tool accepts exactly the
parameters repo_url, query, file_path, messages, repo_type, language,
provider, model, access_token, excluded_dirs, excluded_files, with
repo_url and query required and every other parameter optional. -/
theorem query_repository_tool_schema :
    queryRepositoryParams.map (·.name) =
      [ "repo_url", "query", "file_path", "messages", "repo_type", "language"
      , "provider", "model", "access_token", "excluded_dirs", "excluded_files" ] ∧
    (queryRepositoryParams.filter (·.required)).map (·.name) = ["repo_url", "query"] := by
  constructor <;> rfl

/-- C5: after a successful `resolve` the session's role sequence still
strictly alternates user, assistant, user, assistant, …; after a failed
or canceled resolve the session is exactly its pre-call state. -/
theorem resolve_session_integrity (sess : ConversationSession) (q ans : String)
    (t : Nat) (h : alternatesUA (rolesOf sess.orderedMessages) = true) :
    alternatesUA (rolesOf
        ((resolveSession sess q (ProviderOutcome.success ans) t).2).orderedMessages) = true ∧
    (resolveSession sess q ProviderOutcome.failure t).2 = sess ∧
    (resolveSession sess q ProviderOutcome.canceled t).2 = sess := by
  refine ⟨?_, rfl, rfl⟩
  simpa [resolveSession, rolesOf, alternatesUA_append_pair] using h

/-- C6: `extract` yields its content records in lexicographic order by
path; in particular a repository containing exactly a.py (50 lines) and
b/c.md (10 lines) with no exclusions yields exactly the two records
a.py first and b/c.md second. -/
theorem extract_lexicographic (files : List (String × String))
    (excludedDirs excludedFiles : List String) :
    (extract files excludedDirs excludedFiles).Pairwise pathLe ∧
    (extract [("b/c.md", demoContent 10), ("a.py", demoContent 50)] [] []).map
        (·.path) = ["a.py", "b/c.md"] := by
  refine ⟨sorted_sortByPath _, ?_⟩
  decide

/-- C4: two `buildIndex` calls given identical content-record sequences
and the same deterministic embedding provider and embedding model
produce identical chunk ids and identical embedding vectors (the build
timestamp, the only ambient input, does not influence them). -/
theorem buildIndex_deterministic (records₁ records₂ : List ContentRecord)
    (provider : String → List Int) (maxLines overlap : Nat)
    (modelId repoKey version : String) (t₁ t₂ : Nat)
    (h : records₁ = records₂) :
    ((buildIndex records₁ provider maxLines overlap modelId repoKey version t₁).chunks.map
        (·.chunkId) =
      (buildIndex records₂ provider maxLines overlap modelId repoKey version t₂).chunks.map
        (·.chunkId)) ∧
    ((buildIndex records₁ provider maxLines overlap modelId repoKey version t₁).chunks.map
        (·.embeddingVector) =
      (buildIndex records₂ provider maxLines overlap modelId repoKey version t₂).chunks.map
        (·.embeddingVector)) := by
  subst h
  exact ⟨rfl, rfl⟩

/-- Witness for C4 at a concrete input: a one-record repository built
at two different times yields the same chunk ids and vectors. -/
theorem buildIndex_deterministic_witness :
    ([ContentRecord.mk "a.py" (demoContent 3) 6 false] =
      [ContentRecord.mk "a.py" (demoContent 3) 6 false]) ∧
    (((buildIndex [ContentRecord.mk "a.py" (demoContent 3) 6 false]
          (fun s => [Int.ofNat s.length]) 2 1 "m" "k" "v1" 0).chunks.map (·.chunkId) =
        (buildIndex [ContentRecord.mk "a.py" (demoContent 3) 6 false]
          (fun s => [Int.ofNat s.length]) 2 1 "m" "k" "v1" 7).chunks.map (·.chunkId)) ∧
      ((buildIndex [ContentRecord.mk "a.py" (demoContent 3) 6 false]
          (fun s => [Int.ofNat s.length]) 2 1 "m" "k" "v1" 0).chunks.map
            (·.embeddingVector) =
        (buildIndex [ContentRecord.mk "a.py" (demoContent 3) 6 false]
          (fun s => [Int.ofNat s.length]) 2 1 "m" "k" "v1" 7).chunks.map
            (·.embeddingVector))) :=
  ⟨rfl, buildIndex_deterministic _ _ (fun s => [Int.ofNat s.length]) 2 1 "m" "k" "v1" 0 7 rfl⟩

/-- C7: two build requests for the same repository key, the second
arriving while the first is in flight, cause exactly one underlying
build execution, and the second caller receives the same index
reference as the first. -/
theorem requestBuild_single_flight (st : BuildCoordinator) (key : String)
    (h : lookupFirst st.inflight key = none) :
    (requestBuild (requestBuild st key).2 key).1 = (requestBuild st key).1 ∧
    (requestBuild (requestBuild st key).2 key).2 = (requestBuild st key).2 ∧
    (requestBuild st key).2.executions = st.executions ++ [(key, (requestBuild st key).1)] := by
  simp [requestBuild, h, lookupFirst]

/-- Witness for C7 at a concrete coordinator state. -/
theorem requestBuild_single_flight_witness :
    lookupFirst (BuildCoordinator.mk [] 0 []).inflight "k" = none ∧
    ((requestBuild (requestBuild (BuildCoordinator.mk [] 0 []) "k").2 "k").1 =
        (requestBuild (BuildCoordinator.mk [] 0 []) "k").1 ∧
      (requestBuild (requestBuild (BuildCoordinator.mk [] 0 []) "k").2 "k").2 =
        (requestBuild (BuildCoordinator.mk [] 0 []) "k").2 ∧
      (requestBuild (BuildCoordinator.mk [] 0 []) "k").2.executions =
        (BuildCoordinator.mk [] 0 []).executions ++
          [("k", (requestBuild (BuildCoordinator.mk [] 0 []) "k").1)]) :=
  ⟨rfl, requestBuild_single_flight (BuildCoordinator.mk [] 0 []) "k" rfl⟩

/-- Witness for C5 at a concrete session: the empty session alternates,
and a resolve round-trip preserves alternation and rolls back on
failure or cancellation. -/
theorem resolve_session_integrity_witness :
    alternatesUA (rolesOf (ConversationSession.mk "s" "k" []).orderedMessages) = true ∧
    (alternatesUA (rolesOf
        ((resolveSession (ConversationSession.mk "s" "k" []) "q"
          (ProviderOutcome.success "a") 0).2).orderedMessages) = true ∧
      (resolveSession (ConversationSession.mk "s" "k" []) "q"
          ProviderOutcome.failure 0).2 = ConversationSession.mk "s" "k" [] ∧
      (resolveSession (ConversationSession.mk "s" "k" []) "q"
          ProviderOutcome.canceled 0).2 = ConversationSession.mk "s" "k" []) :=
  ⟨rfl, resolve_session_integrity (ConversationSession.mk "s" "k" []) "q" "a" 0 rfl⟩

/-! ### URL decoder lemmas and claim theorems -/

theorem dropLeadingSlash_decomp (l : List Char) :
    ∃ pre : List Char, (pre = [] ∨ pre = ['/']) ∧ l = pre ++ dropLeadingSlash l := by
  cases l with
  | nil => exact ⟨[], Or.inl rfl, rfl⟩
  | cons c rest =>
      by_cases h : c = '/'
      · subst h
        exact ⟨['/'], Or.inr rfl, by simp [dropLeadingSlash]⟩
      · exact ⟨[], Or.inl rfl, by simp [dropLeadingSlash, h]⟩

theorem dropTrailingSlash_decomp (l : List Char) :
    ∃ post : List Char, (post = [] ∨ post = ['/']) ∧ l = dropTrailingSlash l ++ post := by
  obtain ⟨pre, hpre, hsplit⟩ := dropLeadingSlash_decomp l.reverse
  refine ⟨pre, hpre, ?_⟩
  have h₁ : l = (pre ++ dropLeadingSlash l.reverse).reverse := by
    rw [← hsplit, List.reverse_reverse]
  rw [List.reverse_append] at h₁
  have hpr : pre.reverse = pre := by rcases hpre with rfl | rfl <;> rfl
  rw [hpr] at h₁
  exact h₁

theorem stripSlashes_decomp (s : String) :
    ∃ pre post : List Char,
      s.data = pre ++ (stripSlashes s).data ++ post ∧
      (pre = [] ∨ pre = ['/']) ∧ (post = [] ∨ post = ['/']) := by
  obtain ⟨pre, hpre, h₁⟩ := dropLeadingSlash_decomp s.data
  obtain ⟨post, hpost, h₂⟩ := dropTrailingSlash_decomp (dropLeadingSlash s.data)
  refine ⟨pre, post, ?_, hpre, hpost⟩
  show s.data = pre ++ dropTrailingSlash (dropLeadingSlash s.data) ++ post
  calc s.data = pre ++ dropLeadingSlash s.data := h₁
    _ = pre ++ (dropTrailingSlash (dropLeadingSlash s.data) ++ post) := by rw [← h₂]
    _ = pre ++ dropTrailingSlash (dropLeadingSlash s.data) ++ post := by
          rw [List.append_assoc]

theorem dropTrailingSlash_cons_slash (rest : List Char) (hne : rest ≠ []) :
    ∃ mid : List Char, dropTrailingSlash ('/' :: rest) = '/' :: mid := by
  have hrev : rest.reverse ≠ [] := by simpa using hne
  obtain ⟨c, cs, hc⟩ := List.exists_cons_of_ne_nil hrev
  rw [dropTrailingSlash]
  have : ('/' :: rest).reverse = c :: (cs ++ ['/']) := by
    rw [List.reverse_cons, hc]; simp
  rw [this]
  by_cases h : c = '/'
  · subst h
    exact ⟨cs.reverse, by simp [dropLeadingSlash]⟩
  · exact ⟨cs.reverse ++ [c], by simp [dropLeadingSlash, h]⟩

/-- C8: `extractUrlDomain` and `extractUrlPath` are total — each returns
`some` string or `none` (never throws), and each returns `none` exactly
when the input, after prefixing "https://" unless it starts with "http",
fails to parse as a URL. -/
theorem url_decoder_total (input : String) :
    (extractUrlDomain input = none ↔ urlParse (normalizeUrlInput input) = none) ∧
    (extractUrlPath input = none ↔ urlParse (normalizeUrlInput input) = none) := by
  cases h : urlParse (normalizeUrlInput input) with
  | none => simp [extractUrlDomain, extractUrlPath, h]
  | some u => simp [extractUrlDomain, extractUrlPath, h]

/-- C9: for every input that parses as a URL, the string returned by
`extractUrlDomain` carries a ":port" suffix exactly when the parsed
port component is neither empty nor "80" nor "443"; in particular an
explicit port 443 is stripped even when the scheme is http. -/
theorem extractUrlDomain_port_suffix (input : String) (u : UrlParts)
    (h : urlParse (normalizeUrlInput input) = some u) :
    extractUrlDomain input =
      some (if u.port = "" ∨ u.port = "80" ∨ u.port = "443"
            then u.protocol ++ "//" ++ u.hostname
            else u.protocol ++ "//" ++ u.hostname ++ ":" ++ u.port) ∧
    extractUrlDomain "http://example.com:443" = some "http://example.com" := by
  constructor
  · simp only [extractUrlDomain, h]
    have hmem : u.port ∈ defaultPortStrings ↔
        (u.port = "" ∨ u.port = "80" ∨ u.port = "443") := by
      simp [defaultPortStrings]
    by_cases hp : u.port = "" ∨ u.port = "80" ∨ u.port = "443"
    · rw [if_pos (hmem.mpr hp), if_pos hp]
    · rw [if_neg (fun hh => hp (hmem.mp hh)), if_neg hp]
  · decide

/-- Witness for C9 at the concrete input "example.com:8080", whose
parse carries the non-default port "8080". -/
theorem extractUrlDomain_port_suffix_witness :
    urlParse (normalizeUrlInput "example.com:8080") =
      some (UrlParts.mk "https:" "example.com" "8080" "/") ∧
    (extractUrlDomain "example.com:8080" =
        some (if (UrlParts.mk "https:" "example.com" "8080" "/").port = "" ∨
                 (UrlParts.mk "https:" "example.com" "8080" "/").port = "80" ∨
                 (UrlParts.mk "https:" "example.com" "8080" "/").port = "443"
              then (UrlParts.mk "https:" "example.com" "8080" "/").protocol ++ "//" ++
                   (UrlParts.mk "https:" "example.com" "8080" "/").hostname
              else (UrlParts.mk "https:" "example.com" "8080" "/").protocol ++ "//" ++
                   (UrlParts.mk "https:" "example.com" "8080" "/").hostname ++ ":" ++
                   (UrlParts.mk "https:" "example.com" "8080" "/").port) ∧
      extractUrlDomain "http://example.com:443" = some "http://example.com") :=
  ⟨by decide,
    extractUrlDomain_port_suffix "example.com:8080"
      (UrlParts.mk "https:" "example.com" "8080" "/") (by decide)⟩

/-- C10 counterexample: the input "host//" parses to pathname "//",
which begins with two slashes, yet the returned string is "" and does
not begin with '/'. -/
theorem extractUrlPath_double_slash_cex :
    urlParse (normalizeUrlInput "host//") =
      some (UrlParts.mk "https:" "host" "" "//") ∧
    (UrlParts.mk "https:" "host" "" "//").pathname.data = ['/', '/'] ∧
    extractUrlPath "host//" = some "" ∧
    (∀ mid : List Char, ("" : String).data ≠ '/' :: mid) :=
  ⟨by decide, by decide, by decide, by intro mid h; simp at h⟩

/-- C10 (amended): for every input that parses as a URL,
`extractUrlPath` returns the pathname with at most one leading and at
most one trailing '/' removed; consequently, for a pathname that begins
with two slashes followed by at least one further character (such as
"//a/"), the returned string still begins with '/'. -/
theorem extractUrlPath_strips (input : String) (u : UrlParts)
    (h : urlParse (normalizeUrlInput input) = some u) :
    extractUrlPath input = some (stripSlashes u.pathname) ∧
    (∃ pre post : List Char,
        u.pathname.data = pre ++ (stripSlashes u.pathname).data ++ post ∧
        (pre = [] ∨ pre = ['/']) ∧ (post = [] ∨ post = ['/'])) ∧
    (∀ rest : List Char, rest ≠ [] → u.pathname.data = '/' :: '/' :: rest →
        ∃ mid : List Char, (stripSlashes u.pathname).data = '/' :: mid) := by
  refine ⟨by simp [extractUrlPath, h], stripSlashes_decomp u.pathname, ?_⟩
  intro rest hne hdata
  show ∃ mid, (dropTrailingSlash (dropLeadingSlash u.pathname.data)) = '/' :: mid
  rw [hdata]
  have : dropLeadingSlash ('/' :: '/' :: rest) = '/' :: rest := by
    simp [dropLeadingSlash]
  rw [this]
  exact dropTrailingSlash_cons_slash rest hne

/-- Witness for the amended C10 at the concrete input "host//a/",
whose parse has pathname "//a/". -/
theorem extractUrlPath_strips_witness :
    urlParse (normalizeUrlInput "host//a/") =
      some (UrlParts.mk "https:" "host" "" "//a/") ∧
    (extractUrlPath "host//a/" =
        some (stripSlashes (UrlParts.mk "https:" "host" "" "//a/").pathname) ∧
      (∃ pre post : List Char,
          (UrlParts.mk "https:" "host" "" "//a/").pathname.data =
            pre ++ (stripSlashes
              (UrlParts.mk "https:" "host" "" "//a/").pathname).data ++ post ∧
          (pre = [] ∨ pre = ['/']) ∧ (post = [] ∨ post = ['/'])) ∧
      (∀ rest : List Char, rest ≠ [] →
          (UrlParts.mk "https:" "host" "" "//a/").pathname.data =
            '/' :: '/' :: rest →
          ∃ mid : List Char,
            (stripSlashes
              (UrlParts.mk "https:" "host" "" "//a/").pathname).data = '/' :: mid)) :=
  ⟨by decide,
    extractUrlPath_strips "host//a/" (UrlParts.mk "https:" "host" "" "//a/") (by decide)⟩

/-! ### Repair-pass lemmas -/

theorem rankIn_lt_length (a : String) :
    ∀ l : List String, a ∈ l → rankIn l a < l.length := by
  intro l hl
  induction l with
  | nil => cases hl
  | cons x xs ih =>
      by_cases hx : x = a
      · simp [rankIn, hx]
      · rcases List.mem_cons.mp hl with rfl | hmem
        · exact absurd rfl hx
        · simpa [rankIn, hx] using Nat.succ_lt_succ (ih hmem)

theorem rankIn_append_of_mem (a : String) :
    ∀ l m : List String, a ∈ l → rankIn (l ++ m) a = rankIn l a := by
  intro l m hl
  induction l with
  | nil => cases hl
  | cons x xs ih =>
      by_cases hx : x = a
      · simp [rankIn, hx]
      · rcases List.mem_cons.mp hl with rfl | hmem
        · exact absurd rfl hx
        · simp [rankIn, hx, ih hmem]

theorem rankIn_append_self (a : String) :
    ∀ l : List String, a ∉ l → rankIn (l ++ [a]) a = l.length := by
  intro l hl
  induction l with
  | nil => simp [rankIn]
  | cons x xs ih =>
      have hx : x ≠ a := fun h => hl (h ▸ List.mem_cons_self x xs)
      have hxs : a ∉ xs := fun h => hl (List.mem_cons_of_mem x h)
      simp [rankIn, hx, ih hxs]

theorem nodup_map_key_dedupAux {α : Type} (key : α → String) :
    ∀ (l acc : List α), (acc.map key).Nodup →
      ((l.foldl (fun acc x => if key x ∈ acc.map key then acc else acc ++ [x]) acc).map
        key).Nodup
  | [], _, h => h
  | x :: l, acc, h => by
      simp only [List.foldl_cons]
      by_cases hx : key x ∈ acc.map key
      · rw [if_pos hx]
        exact nodup_map_key_dedupAux key l acc h
      · rw [if_neg hx]
        have h' : ((acc ++ [x]).map key).Nodup := by
          simp only [List.map_append, List.map_cons, List.map_nil]
          exact List.Nodup.append h (List.nodup_singleton _)
            (by simpa [List.disjoint_singleton] using hx)
        exact nodup_map_key_dedupAux key l (acc ++ [x]) h'

theorem nodup_map_key_dedupByKey {α : Type} (key : α → String) (l : List α) :
    ((dedupByKey key l).map key).Nodup :=
  nodup_map_key_dedupAux key l [] (by simp)

theorem visitChild_inv (sids : List String) (q t : String) (st : Trav)
    (hq : q ∈ st.visited) (hinv : TravInv sids st) :
    TravInv sids (visitChild sids q st t) ∧
    ∃ ext, (visitChild sids q st t).visited = st.visited ++ ext := by
  by_cases hc : t ∈ sids ∧ t ∉ st.visited
  · rw [visitChild, if_pos hc]
    obtain ⟨hts, htv⟩ := hc
    refine ⟨⟨?_, ?_, ?_, ?_⟩, [t], rfl⟩
    · intro x hx
      rcases List.mem_append.mp hx with hx | hx
      · exact List.mem_append_left _ (hinv.queue_vis x hx)
      · exact List.mem_append_right _ hx
    · intro cp hcp
      rcases List.mem_append.mp hcp with hcp | hcp
      · exact List.mem_append_left _ (hinv.keys_vis cp hcp)
      · rcases List.mem_singleton.mp hcp with rfl
        exact List.mem_append_right _ (List.mem_singleton_self t)
    · intro v hv
      rcases List.mem_append.mp hv with hv | hv
      · exact hinv.vis_sids v hv
      · rcases List.mem_singleton.mp hv with rfl
        exact hts
    · intro c p hcp
      cases hlk : lookupFirst st.parentMap c with
      | some p' =>
          rw [lookupFirst_append_some _ _ _ _ hlk] at hcp
          injection hcp with hpp
          subst hpp
          obtain ⟨hcv, hpv, hrank⟩ := hinv.rank_lt c p' hlk
          refine ⟨List.mem_append_left _ hcv, List.mem_append_left _ hpv, ?_⟩
          rw [rankIn_append_of_mem _ _ _ hpv, rankIn_append_of_mem _ _ _ hcv]
          exact hrank
      | none =>
          rw [lookupFirst_append_none _ _ _ hlk] at hcp
          simp only [lookupFirst] at hcp
          by_cases hct : t = c
          · subst hct
            rw [if_pos rfl] at hcp
            injection hcp with hpq
            subst hpq
            refine ⟨List.mem_append_right _ (List.mem_singleton_self t),
              List.mem_append_left _ hq, ?_⟩
            rw [rankIn_append_self _ _ htv, rankIn_append_of_mem _ _ _ hq]
            exact rankIn_lt_length _ _ hq
          · rw [if_neg hct] at hcp
            cases hcp
  · rw [visitChild, if_neg hc]
    exact ⟨hinv, [], by simp⟩

theorem foldl_visitChild_inv (sids : List String) (q : String) :
    ∀ (ts : List String) (st : Trav), TravInv sids st → q ∈ st.visited →
      TravInv sids (ts.foldl (visitChild sids q) st) ∧
      ∃ ext, (ts.foldl (visitChild sids q) st).visited = st.visited ++ ext
  | [], st, hinv, _ => ⟨hinv, [], by simp⟩
  | t :: ts, st, hinv, hq => by
      obtain ⟨hinv₁, ext₁, hext₁⟩ := visitChild_inv sids q t st hq hinv
      have hq₁ : q ∈ (visitChild sids q st t).visited := by
        rw [hext₁]; exact List.mem_append_left _ hq
      obtain ⟨hinv₂, ext₂, hext₂⟩ :=
        foldl_visitChild_inv sids q ts (visitChild sids q st t) hinv₁ hq₁
      refine ⟨by simpa using hinv₂, ext₁ ++ ext₂, ?_⟩
      simp only [List.foldl_cons]
      rw [hext₂, hext₁, List.append_assoc]

theorem expandSection_inv (ss : List WikiSection) (st : Trav) (q : String)
    (hq : q ∈ st.visited) (hinv : TravInv (ss.map (·.id)) st) :
    TravInv (ss.map (·.id)) (expandSection ss st q) := by
  rw [expandSection]
  cases findSection ss q with
  | none => exact hinv
  | some sec => exact (foldl_visitChild_inv _ q sec.subsectionIds st hinv hq).1

theorem travRun_inv (ss : List WikiSection) :
    ∀ (fuel : Nat) (st : Trav), TravInv (ss.map (·.id)) st →
      TravInv (ss.map (·.id)) (travRun ss fuel st)
  | 0, _, hinv => hinv
  | Nat.succ fuel, st, hinv => by
      rw [travRun]
      cases hqueue : st.queue with
      | nil => exact hinv
      | cons q rest =>
          have hq : q ∈ st.visited :=
            hinv.queue_vis q (hqueue ▸ List.mem_cons_self q rest)
          have hinv' : TravInv (ss.map (·.id)) { st with queue := rest } :=
            ⟨fun x hx => hinv.queue_vis x (hqueue ▸ List.mem_cons_of_mem q hx),
              hinv.keys_vis, hinv.vis_sids, hinv.rank_lt⟩
          exact travRun_inv ss fuel _ (expandSection_inv ss _ q hq hinv')

theorem travFinal_inv (w : WikiStructure) :
    TravInv (sectionIdsBase w) (travFinal w) := by
  apply travRun_inv
  refine ⟨fun q hq => hq, fun cp hcp => absurd hcp (List.not_mem_nil cp), ?_, ?_⟩
  · intro v hv
    have := List.mem_filter.mp hv
    exact of_decide_eq_true this.2
  · intro c p hcp
    cases hcp

theorem repairedPages_ids (w : WikiStructure) :
    (repairedPages w).map (fun p => p.id) = pageIdsBase w := by
  rw [repairedPages, List.map_map]
  rfl

theorem repairedSections_ids (w : WikiStructure) :
    (repairedSections w).map (fun s => s.id) = sectionIdsBase w := by
  rw [repairedSections, List.map_map]
  rfl

/-- C1: every `WikiStructure` the synthesizer returns (the repaired
structure) satisfies the structural invariant — all `pageIds`,
`rootSections`, `subsectionIds` and `relatedPageIds` references resolve
to existing pages or sections, related pages are never self-references,
page and section ids are unique, and the section-to-subsection relation
has no cycle at all (hence none reachable from `rootSections`). -/
theorem repairStructure_valid (w : WikiStructure) :
    validStructure (repairStructure w) := by
  have hpids := repairedPages_ids w
  have hsids := repairedSections_ids w
  have hinv := travFinal_inv w
  refine ⟨?_, ?_, ?_, ?_, ?_, ?_, ?_⟩
  · -- section page references resolve
    intro sec hsec p hp
    have hsec' : sec ∈ repairedSections w := hsec
    obtain ⟨s0, _, rfl⟩ := List.mem_map.mp hsec'
    have hp' : p ∈ s0.pageIds.filter fun q => decide (q ∈ pageIdsBase w) := hp
    have hmem : p ∈ pageIdsBase w :=
      of_decide_eq_true (List.mem_filter.mp hp').2
    show p ∈ (repairedPages w).map fun q => q.id
    rw [hpids]
    exact hmem
  · -- root references resolve
    intro r hr
    have hr' : r ∈ repairedRoots w := hr
    show r ∈ (repairedSections w).map fun s => s.id
    rw [hsids]
    rcases List.mem_append.mp hr' with hr₁ | hr₂
    · exact of_decide_eq_true (List.mem_filter.mp hr₁).2
    · exact (List.mem_filter.mp hr₂).1
  · -- subsection references resolve
    intro sec hsec t ht
    have hsec' : sec ∈ repairedSections w := hsec
    obtain ⟨s0, _, rfl⟩ := List.mem_map.mp hsec'
    have ht' : t ∈ s0.subsectionIds.filter fun u =>
        decide (lookupFirst (travFinal w).parentMap u = some s0.id) := ht
    have hlk : lookupFirst (travFinal w).parentMap t = some s0.id :=
      of_decide_eq_true (List.mem_filter.mp ht').2
    obtain ⟨htv, _, _⟩ := hinv.rank_lt t s0.id hlk
    show t ∈ (repairedSections w).map fun s => s.id
    rw [hsids]
    exact hinv.vis_sids t htv
  · -- related page references resolve and are not self-references
    intro p1 hp1 r hr
    have hp1' : p1 ∈ repairedPages w := hp1
    obtain ⟨p0, _, rfl⟩ := List.mem_map.mp hp1'
    have hr' : r ∈ p0.relatedPageIds.filter fun u =>
        decide (u ∈ pageIdsBase w ∧ u ≠ p0.id) := hr
    have hru : r ∈ pageIdsBase w ∧ r ≠ p0.id :=
      of_decide_eq_true (List.mem_filter.mp hr').2
    constructor
    · show r ∈ (repairedPages w).map fun q => q.id
      rw [hpids]
      exact hru.1
    · exact hru.2
  · -- page ids unique
    show ((repairedPages w).map fun p => p.id).Nodup
    rw [hpids]
    exact nodup_map_key_dedupByKey (fun p => p.id) w.pages
  · -- section ids unique
    show ((repairedSections w).map fun s => s.id).Nodup
    rw [hsids]
    exact nodup_map_key_dedupByKey (fun s => s.id) w.sections
  · -- no cycle in the section-to-subsection relation
    intro s hs
    have edge_rank : ∀ a b, sectEdge (repairStructure w) a b →
        rankIn (travFinal w).visited a < rankIn (travFinal w).visited b := by
      rintro a b ⟨sec, hsec, hid, hmem⟩
      have hsec' : sec ∈ repairedSections w := hsec
      obtain ⟨s0, _, rfl⟩ := List.mem_map.mp hsec'
      have hmem' : b ∈ s0.subsectionIds.filter fun u =>
          decide (lookupFirst (travFinal w).parentMap u = some s0.id) := hmem
      have hlk : lookupFirst (travFinal w).parentMap b = some s0.id :=
        of_decide_eq_true (List.mem_filter.mp hmem').2
      obtain ⟨_, _, hrank⟩ := hinv.rank_lt b s0.id hlk
      have hid' : s0.id = a := hid
      rw [← hid']
      exact hrank
    have mono : ∀ a b, Relation.TransGen (sectEdge (repairStructure w)) a b →
        rankIn (travFinal w).visited a < rankIn (travFinal w).visited b := by
      intro a b h
      induction h with
      | single h₁ => exact edge_rank _ _ h₁
      | tail _ h₂ ih => exact lt_trans ih (edge_rank _ _ h₂)
    exact absurd (mono s s hs) (lt_irrefl _)

end DeepWiki
